import Mathlib

/-!
# Verification development for geode: `Value<T>` and `Springs<TV>`

Shallow embedding of

* `geode/value/Value.h`   : `ValueBase`, `Value<T>` (`set_dirty`, `set_value`,
  `operator()`, `peek`);
* `force/Springs.cpp`     : `Springs<TV>` (constructor checks,
  `update_position`, `add_elastic_force`).

Conventions of the embedding.

* A method of `Value<T>` is a function from the fields of the object (and the
  state of everything outside the object) to the new fields (and the new outside
  state).  The calls a method makes to code outside the object (`signal()`,
  `update()`) are handlers passed as arguments, so that the same definition is
  used for one node in isolation (the handlers record the calls) and for a node
  inside a dependency graph (the handler propagates dirtiness).
* The raw `aligned_storage` buffer of `Value<T>` is an `Option T`: `some v` when
  a `T` has been constructed in it, `none` otherwise.  The placement
  `new (&buffer) T(value)` fills the slot.  The explicit destructor call
  `->~T()` empties a slot that holds a `T`; on a slot that holds no `T` it is
  undefined behaviour in the source, and the outcome `Undefined` here: the
  methods that destroy return `Except Undefined`.
* `ExceptionValue` is an `Option E`; the default constructed `ExceptionValue()`
  is `none`.
* Arithmetic of `Springs` is exact, over a linear ordered field `K`; vectors are
  a `K`-module `V`.  An array access outside of the bounds (undefined behaviour in
  the source) is an explicit error of the embedding.
-/

namespace geode

/-! ## `ValueBase` and `Value<T>` -/

/-- Fields of `ValueBase` (Value.h, lines 29-30): `dirty_` ("are we up to
date?") and `error` ("is the value an exception?"). -/
structure ValueBase (E : Type) where
  dirty_ : Bool
  error : Option E
  deriving DecidableEq, Repr

/-- Fields of `Value<T>` (Value.h, line 138): the base class fields and `buffer`,
"the cached value if !dirty_". -/
structure Value (T E : Type) extends ValueBase E where
  buffer : Option T
  deriving DecidableEq, Repr

/-- What a call may throw: a failed `GEODE_ASSERT`, or a stored exception that is
thrown again. -/
inductive Thrown (E : Type) where
  | assertion : Thrown E
  | raised : E → Thrown E
  deriving DecidableEq, Repr

/-- Undefined behaviour of the source: the destructor `~T()` is run on a buffer
in which no `T` has been constructed. -/
inductive Undefined where
  | destroy_without_object : Undefined
  deriving DecidableEq, Repr

/-- Modelled from the spec: the constructor `ValueBase::ValueBase(name)` is
defined in Value.cpp, which is missing; "a node is created dirty, with no stored
value", and `Value(name) : ValueBase(name) {}` (Value.h, lines 140-141) leaves
the buffer unconstructed. -/
def Value.fresh {T E : Type} : Value T E :=
  { dirty_ := true, error := none, buffer := none }

/-- The explicit destructor call
`static_cast<const T*>(static_cast<const void*>(&buffer))->~T()` (Value.h, lines
145, 152, 162): the `T` in the buffer is destroyed; when the buffer holds no `T`
the call is undefined. -/
def Value.destroy {T E : Type} (self : Value T E) : Except Undefined (Value T E) :=
  match self.buffer with
  | some _ => .ok { self with buffer := none }
  | none => .error .destroy_without_object

/-- `Value<T>::set_dirty` (Value.h, lines 148-155).  The handler `signal`
stands for the call `signal()`; it receives the fields of the node at the time
of the call. -/
def Value.set_dirty {T E σ : Type} (signal : Value T E → σ → Except Undefined σ)
    (self : Value T E) (w : σ) : Except Undefined (Value T E × σ) :=
  if !self.dirty_ then
    let self := { self with dirty_ := true }
    let self := { self with error := none }
    match self.destroy with
    | .error u => .error u
    | .ok self =>
      match signal self w with
      | .error u => .error u
      | .ok w => .ok (self, w)
  else
    .ok (self, w)

/-- `Value<T>::set_value` (Value.h, lines 160-167). -/
def Value.set_value {T E σ : Type} (signal : Value T E → σ → Except Undefined σ)
    (self : Value T E) (value : T) (w : σ) : Except Undefined (Value T E × σ) :=
  match (if !self.dirty_ then self.destroy else .ok self) with
  | .error u => .error u
  | .ok self =>
    let self := { self with dirty_ := false }
    let self := { self with error := none }
    let self := { self with buffer := some value }
    match signal self w with
    | .error u => .error u
    | .ok w => .ok (self, w)

/-- `set_dirty()` called twice in a row: the second call is made when the first
has returned. -/
def Value.set_dirty_twice {T E σ : Type} (signal : Value T E → σ → Except Undefined σ)
    (self : Value T E) (w : σ) : Except Undefined (Value T E × σ) :=
  match Value.set_dirty signal self w with
  | .error u => .error u
  | .ok r => Value.set_dirty signal r.1 r.2

/-- `Value<T>::peek` (Value.h, lines 187-190): `GEODE_ASSERT(!dirty_)`, then a
reference to the buffer.  The result is paired with the fields of the node after
the call (the fields are `mutable`, the method is `const`). -/
def Value.peek {T E : Type} (self : Value T E) : Value T E × Except (Thrown E) (Option T) :=
  if !self.dirty_ then
    (self, .ok self.buffer)
  else
    (self, .error .assertion)

/-- Modelled from the spec: `ValueBase::pull` is defined in Value.cpp, which is
missing.  "if dirty, invokes the node's own recomputation logic, then clears
dirty"; "If a recomputation fails, the failure is captured and stored on the
node in place of a value; dirty is cleared so the failure is treated as up to
date"; "if a failure capsule is present, re-raises it (same capsule, no
recomputation)".  `operator()` in Value.h has no check of `error` after
`pull()`, so the stored capsule is thrown from within `pull`.  The handler
`update` stands for the virtual `update()`: it returns the fields and the outside
state it leaves, and the exception it throws, if any.  The detection of a
re-entrant `pull()` is not part of this model (a handler cannot call back). -/
def ValueBase.pull {T E σ : Type} (update : Value T E → σ → (Value T E × σ) × Option E)
    (self : Value T E) (w : σ) : (Value T E × σ) × Option (Thrown E) :=
  let r :=
    if self.dirty_ then
      match update self w with
      | ((self, w), none) => ({ self with dirty_ := false }, w)
      | ((self, w), some e) => ({ self with dirty_ := false, error := some e, buffer := none }, w)
    else
      (self, w)
  match r.1.error with
  | some e => (r, some (.raised e))
  | none => (r, none)

/-- `Value<T>::operator()` (Value.h, lines 170-173), the `fetch` of the spec:
`pull();` then a reference to the buffer. -/
def Value.fetch {T E σ : Type} (update : Value T E → σ → (Value T E × σ) × Option E)
    (self : Value T E) (w : σ) : (Value T E × σ) × Except (Thrown E) (Option T) :=
  match ValueBase.pull update self w with
  | (r, some t) => (r, .error t)
  | ((self, w), none) => ((self, w), .ok self.buffer)

/-- Record of the calls a node makes to the outside: the `signal()` calls, each
with the fields of the node at the time of the call, and the number of
`update()` calls. -/
structure Trace (T E : Type) where
  signals : List (Value T E)
  updates : Nat
  deriving DecidableEq, Repr

/-- Handler: a `signal()` call is recorded, and returns. -/
def Trace.signal {T E : Type} (self : Value T E) (tr : Trace T E) :
    Except Undefined (Trace T E) :=
  .ok { tr with signals := tr.signals ++ [self] }

/-- Handler: an `update()` call is counted, and `recompute` (any function at
all) decides what the recomputation does to the node and whether it throws. -/
def Trace.update {T E : Type} (recompute : Value T E → Value T E × Option E)
    (self : Value T E) (tr : Trace T E) : (Value T E × Trace T E) × Option E :=
  (((recompute self).1, { tr with updates := tr.updates + 1 }), (recompute self).2)

/-- The three states of a typed value (spec, data model): dirty, holding a value,
holding a failure. -/
def Value.holds_value {T E : Type} (self : Value T E) : Bool := self.buffer.isSome

/-- The failure slot holds a capsule. -/
def Value.holds_failure {T E : Type} (self : Value T E) : Bool := self.error.isSome

/-- Exactly one of "storage holds a T", "failure slot holds a capsule", "node is
dirty" is true. -/
def Value.exactly_one {T E : Type} (self : Value T E) : Prop :=
  (self.holds_value = true ∧ self.holds_failure = false ∧ self.dirty_ = false) ∨
  (self.holds_value = false ∧ self.holds_failure = true ∧ self.dirty_ = false) ∨
  (self.holds_value = false ∧ self.holds_failure = false ∧ self.dirty_ = true)

/-- A node that holds the failure "boom": not dirty, the failure slot filled, no
`T` in the buffer.  It is the state in which `pull()` leaves a node whose
recomputation has failed. -/
def Value.example_failed : Value Nat String :=
  { dirty_ := false, error := some "boom", buffer := none }

/-- A write to a typed value. -/
inductive Write (T : Type) where
  | set_value : T → Write T
  | set_dirty : Write T
  deriving DecidableEq, Repr

/-- One write applied to a node, recording the signals. -/
def Write.apply {T E : Type} (op : Write T) (s : Value T E × Trace T E) :
    Except Undefined (Value T E × Trace T E) :=
  match op with
  | .set_value v => Value.set_value Trace.signal s.1 v s.2
  | .set_dirty => Value.set_dirty Trace.signal s.1 s.2

/-- A sequence of writes, applied from left to right; each write is made when the
one before has returned. -/
def Write.run {T E : Type} (ops : List (Write T)) (s : Value T E × Trace T E) :
    Except Undefined (Value T E × Trace T E) :=
  match ops with
  | [] => .ok s
  | op :: ops =>
    match op.apply s with
    | .error u => .error u
    | .ok s1 => Write.run ops s1

/-! ## Dependency graph -/

/-- A dependency graph of `n` typed values, addressed by handle.  `values` holds
the fields of each node; `actions m` is the linked list `ValueBase::actions` of
node `m` (Value.h, line 43), "links to actions which depend on us", each link
represented by the handle of the node that its action marks dirty (an action
with several output nodes has one link for each); `pending` is the static
`ValueBase::pending` (Value.h, line 44), the "linked list of pending signals". -/
structure Graph (n : Nat) (T E : Type) where
  values : Fin n → Value T E
  actions : Fin n → List (Fin n)
  pending : List (Fin n)

/-- The fields `self` are written back to node `m`. -/
def Graph.store {n : Nat} {T E : Type} (g : Graph n T E) (m : Fin n) (self : Value T E) :
    Graph n T E :=
  { g with values := Function.update g.values m self }

/-- Modelled from the spec: `ValueBase::signal` is defined in Value.cpp, which is
missing.  This is the part of `signal()` that every call performs: it
"enqueues every edge in dependents into the scheduler's worklist". -/
def Graph.enqueue {n : Nat} {T E : Type} (g : Graph n T E) (m : Fin n) : Graph n T E :=
  { g with pending := g.pending ++ g.actions m }

/-- Modelled from the spec: a `signal()` made while a drain is in progress "only
enqueues and returns immediately". -/
def Graph.enqueue_only {n : Nat} {T E : Type} (g : Graph n T E) (m : Fin n) :
    Except Undefined (Graph n T E) :=
  .ok (g.enqueue m)

/-- Number of nodes that are not dirty. -/
def Graph.clean_count {n : Nat} {T E : Type} (g : Graph n T E) : Nat :=
  (Finset.univ.filter (fun i => (g.values i).dirty_ = false)).card

/-- `Value<T>::set_dirty` (Value.h, lines 148-155) called on node `m` of the graph:
the definition `Value.set_dirty`, with the `signal()` call interpreted by
`signal` on the graph in which the new fields of `m` have been written. -/
def Graph.set_dirty_with {n : Nat} {T E : Type}
    (signal : Graph n T E → Fin n → Except Undefined (Graph n T E))
    (g : Graph n T E) (m : Fin n) : Except Undefined (Graph n T E) :=
  match Value.set_dirty (fun self g => signal (g.store m self) m) (g.values m) g with
  | .error u => .error u
  | .ok r => .ok r.2

/-- Modelled from the spec: the drain loop of the signal scheduler (Value.cpp,
missing).  The drainer "repeatedly pops an entry, marks the referenced node dirty
(if not already), and enqueues that node's own dependents, until the worklist is
empty, then returns"; a node is marked dirty by its `set_dirty()`, and the
`signal()` that `set_dirty()` makes while the drain is in progress "only enqueues
and returns immediately".  The loop terminates: each round either marks a clean
node dirty or shortens the worklist. -/
def Graph.drain {n : Nat} {T E : Type} (g : Graph n T E) : Except Undefined (Graph n T E) :=
  match _hp : g.pending with
  | [] => .ok g
  | m :: rest =>
    match _hs : Graph.set_dirty_with Graph.enqueue_only { g with pending := rest } m with
    | .error u => .error u
    | .ok g1 => Graph.drain g1
termination_by (g.clean_count, g.pending.length)
decreasing_by
  cases hd : (g.values m).dirty_
  · cases hb : (g.values m).buffer with
    | none =>
      simp [Graph.set_dirty_with, Value.set_dirty, Value.destroy, hd, hb] at _hs
    | some b =>
      simp only [Graph.set_dirty_with, Value.set_dirty, Value.destroy, hd, hb,
        Graph.enqueue_only, Graph.enqueue, Graph.store, Bool.not_false, if_true,
        Except.ok.injEq] at _hs
      subst _hs
      apply Prod.Lex.left
      simp only [Graph.clean_count]
      apply Finset.card_lt_card
      rw [Finset.ssubset_iff_of_subset]
      · refine ⟨m, by simp [hd], by simp⟩
      · intro i
        by_cases him : i = m
        · subst him; simp
        · simp [Function.update_noteq him]
  · simp only [Graph.set_dirty_with, Value.set_dirty, hd, Bool.not_true, Bool.false_eq_true,
      if_false, Except.ok.injEq] at _hs
    subst _hs
    have hc : Graph.clean_count { g with pending := rest } = g.clean_count := rfl
    rw [hc]
    apply Prod.Lex.right
    simp [_hp]

/-- Modelled from the spec: `ValueBase::signal` (Value.cpp, missing).  It
enqueues the dependents of the node; "the first signal() call that finds the
worklist empty becomes the drainer", and a call that finds a drain in progress
(entries still pending) "only enqueues and returns immediately". -/
def Graph.signal {n : Nat} {T E : Type} (g : Graph n T E) (m : Fin n) :
    Except Undefined (Graph n T E) :=
  if g.pending.isEmpty then (g.enqueue m).drain else g.enqueue_only m

/-- `Value<T>::set_dirty` on node `m` of the graph. -/
def Graph.set_dirty {n : Nat} {T E : Type} (g : Graph n T E) (m : Fin n) :
    Except Undefined (Graph n T E) :=
  Graph.set_dirty_with Graph.signal g m

/-- `Value<T>::set_value` (Value.h, lines 160-167) on node `m` of the graph. -/
def Graph.set_value {n : Nat} {T E : Type} (g : Graph n T E) (m : Fin n) (v : T) :
    Except Undefined (Graph n T E) :=
  match Value.set_value (fun self g => Graph.signal (g.store m self) m) (g.values m) v g with
  | .error u => .error u
  | .ok r => .ok r.2

/-- Node `m` is transitively reachable from `x` through dependent edges. -/
def Graph.reachable {n : Nat} {T E : Type} (g : Graph n T E) (x m : Fin n) : Prop :=
  Relation.TransGen (fun a b => b ∈ g.actions a) x m

/-- Every dependent of a dirty node is dirty. -/
def Graph.closed {n : Nat} {T E : Type} (g : Graph n T E) : Prop :=
  ∀ u, (g.values u).dirty_ = true → ∀ m ∈ g.actions u, (g.values m).dirty_ = true

/-- Every node that is not dirty has a `T` in its buffer (no node holds a
failure). -/
def Graph.stored {n : Nat} {T E : Type} (g : Graph n T E) : Prop :=
  ∀ i, (g.values i).dirty_ = false → (g.values i).buffer.isSome = true

/-- The empty dirty state or the state `s`: what the fields of a node may be after
a propagation that started from the fields `s`. -/
def Value.same_or_dirtied {T E : Type} (s s1 : Value T E) : Prop :=
  s1 = s ∨ s1 = { dirty_ := true, error := none, buffer := none }

/-- Invariant of the drain loop started for node `x`: every dependent of a dirty
node, and of `x`, is dirty or still in the worklist, the edges in `ex` apart. -/
def Graph.inv {n : Nat} {T E : Type} (x : Fin n) (ex : Fin n → Fin n → Prop) (g : Graph n T E) :
    Prop :=
  ∀ u k, k ∈ g.actions u → ((g.values u).dirty_ = true ∨ u = x) →
    (g.values k).dirty_ = true ∨ k ∈ g.pending ∨ ex u k

/-- Four nodes holding values, with the edges `0 → 1`, `0 → 3`, `1 → 2`, and an
empty worklist. -/
def Graph.example_chain : Graph 4 Nat String :=
  { values := fun _ => { dirty_ := false, error := none, buffer := some 1 },
    actions := fun i => if i = 0 then [1, 3] else if i = 1 then [2] else [],
    pending := [] }

end geode

namespace other

/-! ## `Springs<TV>` -/

/-- How a call of the embedding fails: an `OTHER_ASSERT` that does not hold, or an
array access outside of the bounds (undefined behaviour in the source). -/
inductive Failure where
  | assertion : Failure
  | out_of_range : Failure
  deriving DecidableEq, Repr

/-- `SpringInfo<TV>`: the record is declared in Springs.h, which is missing; these
are the members that Springs.cpp reads and writes. -/
structure SpringInfo (K V : Type) where
  restlength : K
  stiffness : K
  damping : K
  length : K
  direction : V
  alpha : K
  beta : K
  deriving DecidableEq, Repr

/-- `NdArray<const T>`, as far as Springs.cpp uses it: `shape` (its length is
`rank()`) and the flat data. -/
structure NdArray (K : Type) where
  shape : List Nat
  flat : List K
  deriving DecidableEq, Repr

/-- `NdArray::rank()`. -/
def NdArray.rank {K : Type} (a : NdArray K) : Nat := a.shape.length

/-- Members of `Springs<TV>` (Springs.h is missing; the members are those
initialised by the constructor, Springs.cpp lines 20-25, and `X`, assigned in
`update_position`). -/
structure Springs (K V : Type) where
  springs : List (Int × Int)
  resist_compression : Bool
  off_axis_damping : K
  nodes_ : Int
  mass : List K
  info : List (SpringInfo K V)
  X : List V
  deriving DecidableEq, Repr

/-- `a[i]` for an `int` index: outside of `[0, a.size())` the access is undefined
in the source and an error here. -/
def read {α : Type} (a : List α) (i : Int) : Except Failure α :=
  if 0 ≤ i then
    match a[i.toNat]? with
    | some x => .ok x
    | none => .error .out_of_range
  else .error .out_of_range

/-- `a[i] = f(a[i])` for an `int` index (`a[i] += f`, `a[i] -= f`). -/
def modify_at {α : Type} (a : List α) (i : Int) (f : α → α) : Except Failure (List α) :=
  match read a i with
  | .ok x => .ok (a.set i.toNat (f x))
  | .error e => .error e

/-- `scalar_view(springs)`: the endpoints of all springs as one flat array of
`int` (array library, missing). -/
def scalar_view (springs : List (Int × Int)) : List Int :=
  springs.flatMap (fun p => [p.1, p.2])

/-- `RawArray::max()` (array library, missing): the largest entry of a non-empty
array. -/
def array_max (xs : List Int) : Int :=
  match xs with
  | [] => 0
  | x :: xs => xs.foldl max x

/-- The four `OTHER_ASSERT`s of the constructor (Springs.cpp, lines 26-29), with
`nodes_ = X.size()`. -/
def Springs.checks {K V : Type} (springs : List (Int × Int)) (mass : List K) (X : List V)
    (stiffness damping_ratio : NdArray K) : Bool :=
  (springs.length == 0 || decide (array_max (scalar_view springs) < (X.length : Int))) &&
  (mass.length == X.length) &&
  (stiffness.rank == 0 || (stiffness.rank == 1 && stiffness.shape[0]? == some springs.length)) &&
  (damping_ratio.rank == 0 ||
    (damping_ratio.rank == 1 && damping_ratio.shape[0]? == some springs.length))

section
variable {K V : Type} [LinearOrderedField K] [AddCommGroup V] [Module K V]

/-- Body of the loop of the constructor (Springs.cpp, lines 32-39) for spring `s`
with endpoints `i`, `j`.  `magnitude` and `sqrt` come from the vector and math
libraries (missing) and are parameters. -/
def Springs.init_info (magnitude : V → K) (sqrt : K → K) (mass : List K) (X : List V)
    (stiffness damping_ratio : NdArray K) (s : Nat) (i j : Int) (I : SpringInfo K V) :
    Except Failure (SpringInfo K V) :=
  match read X i, read X j, read mass i, read mass j,
      read stiffness.flat (if stiffness.rank != 0 then s else 0),
      read damping_ratio.flat (if damping_ratio.rank != 0 then s else 0) with
  | .ok Xi, .ok Xj, .ok mi, .ok mj, .ok stiffness_, .ok damping_ratio_ =>
    let I := { I with restlength := magnitude (Xi - Xj) }
    let harmonic_mass := 1 / (1 / mi + 1 / mj)
    let I := { I with stiffness := stiffness_ * harmonic_mass / (I.restlength * I.restlength) }
    .ok { I with damping := 2 * damping_ratio_ * harmonic_mass * sqrt stiffness_
                              / (I.restlength * I.restlength) }
  | _, _, _, _, _, _ => .error .out_of_range

/-- The loop of the constructor (Springs.cpp, lines 31-40), from spring `s` on. -/
def Springs.init_loop (magnitude : V → K) (sqrt : K → K) (mass : List K) (X : List V)
    (stiffness damping_ratio : NdArray K) :
    List (Int × Int) → Nat → List (SpringInfo K V) → Except Failure (List (SpringInfo K V))
  | [], _, info => .ok info
  | (i, j) :: rest, s, info =>
    match info[s]? with
    | none => .error .out_of_range
    | some I =>
      match Springs.init_info magnitude sqrt mass X stiffness damping_ratio s i j I with
      | .error e => .error e
      | .ok I =>
        Springs.init_loop magnitude sqrt mass X stiffness damping_ratio rest (s + 1) (info.set s I)

/-- The constructor `Springs<TV>::Springs` (Springs.cpp, lines 19-41).  `blank` is
the content of the entries of `info(springs.size(),false)` before the loop fills
them. -/
def Springs.create (magnitude : V → K) (sqrt : K → K) (blank : SpringInfo K V)
    (springs : List (Int × Int)) (mass : List K) (X : List V)
    (stiffness damping_ratio : NdArray K) : Except Failure (Springs K V) :=
  if Springs.checks springs mass X stiffness damping_ratio then
    match Springs.init_loop magnitude sqrt mass X stiffness damping_ratio springs 0
        (List.replicate springs.length blank) with
    | .error e => .error e
    | .ok info =>
      .ok { springs := springs, resist_compression := true, off_axis_damping := 0,
            nodes_ := X.length, mass := mass, info := info, X := [] }
  else .error .assertion

/-- Body of the loop of `update_position` (Springs.cpp, lines 68-80) for a spring
whose endpoints are at `Xi` and `Xj`.  `normalize` stands for
`I.direction.normalize()` (vector library, missing): it gives the normalized
vector and returns the length. -/
def SpringInfo.update (normalize : V → V × K) (resist_compression definite : Bool)
    (Xi Xj : V) (I : SpringInfo K V) : SpringInfo K V :=
  let I := { I with direction := Xj - Xi }
  let I := { I with length := (normalize I.direction).2, direction := (normalize I.direction).1 }
  let I := { I with alpha := 0 }
  if !resist_compression && decide (I.length < I.restlength) then
    { I with beta := 0 }
  else
    let I := { I with beta := I.stiffness }
    if I.length > (if definite then I.restlength else (1 / 100) * I.restlength) then
      let rotational := I.stiffness * (1 - I.restlength / I.length)
      let I := { I with alpha := I.alpha + rotational }
      { I with beta := I.beta - rotational }
    else I

/-- The loop of `update_position` (Springs.cpp, lines 65-81), from spring `s` on. -/
def Springs.update_position_loop (normalize : V → V × K) (resist_compression definite : Bool)
    (X : List V) :
    List (Int × Int) → Nat → List (SpringInfo K V) → Except Failure (List (SpringInfo K V))
  | [], _, info => .ok info
  | (i, j) :: rest, s, info =>
    match info[s]?, read X j, read X i with
    | some I, .ok Xj, .ok Xi =>
      Springs.update_position_loop normalize resist_compression definite X rest (s + 1)
        (info.set s (SpringInfo.update normalize resist_compression definite Xi Xj I))
    | _, _, _ => .error .out_of_range

/-- `Springs<TV>::update_position` (Springs.cpp, lines 62-82). -/
def Springs.update_position (normalize : V → V × K) (self : Springs K V) (X_ : List V)
    (definite : Bool) : Except Failure (Springs K V) :=
  if (X_.length : Int) = self.nodes_ then
    let self := { self with X := X_ }
    match Springs.update_position_loop normalize self.resist_compression definite self.X
        self.springs 0 self.info with
    | .error e => .error e
    | .ok info => .ok { self with info := info }
  else .error .assertion

/-- The loop of `add_elastic_force` (Springs.cpp, lines 114-120), from spring `s`
on. -/
def Springs.add_elastic_force_loop (info : List (SpringInfo K V)) :
    List (Int × Int) → Nat → List V → Except Failure (List V)
  | [], _, F => .ok F
  | (i, j) :: rest, s, F =>
    match info[s]? with
    | none => .error .out_of_range
    | some I =>
      let f := (I.stiffness * (I.length - I.restlength)) • I.direction
      match modify_at F i (fun x => x + f) with
      | .error e => .error e
      | .ok F =>
        match modify_at F j (fun x => x - f) with
        | .error e => .error e
        | .ok F => Springs.add_elastic_force_loop info rest (s + 1) F

/-- `Springs<TV>::add_elastic_force` (Springs.cpp, lines 112-121). -/
def Springs.add_elastic_force (self : Springs K V) (F : List V) : Except Failure (List V) :=
  if (F.length : Int) = self.nodes_ then
    Springs.add_elastic_force_loop self.info self.springs 0 F
  else .error .assertion

/-- The threshold of `update_position`: `definite ? restlength : .01*restlength`. -/
def SpringInfo.threshold (definite : Bool) (I : SpringInfo K V) : K :=
  if definite then I.restlength else (1 / 100) * I.restlength

/-- The stiffness split of a spring after `update_position`, as a property of
its `info` entry: either compression is not resisted, the spring is shorter than its rest
length and `alpha = beta = 0`; or `alpha + beta = stiffness`, with `alpha = 0`
and `beta = stiffness` when the length does not exceed the threshold, and
`alpha = stiffness*(1 - restlength/length)` otherwise. -/
def SpringInfo.stiffness_split (resist_compression definite : Bool) (I : SpringInfo K V) : Prop :=
  (resist_compression = false ∧ I.length < I.restlength ∧ I.alpha = 0 ∧ I.beta = 0) ∨
  (I.alpha + I.beta = I.stiffness ∧
    (I.length ≤ I.threshold definite → I.alpha = 0 ∧ I.beta = I.stiffness) ∧
    (¬ I.length ≤ I.threshold definite →
      I.alpha = I.stiffness * (1 - I.restlength / I.length)))

end

/-- One dimensional `normalize`: the sign of the vector, and its absolute value. -/
def normalize_1d (v : ℚ) : ℚ × ℚ := (if v < 0 then -1 else 1, |v|)

/-- Three nodes on a line and one spring between nodes 0 and 1, of rest length 2
and stiffness 1/8, stretched to length 3. -/
def Springs.example_line : Springs ℚ ℚ :=
  { springs := [(0, 1)], resist_compression := true, off_axis_damping := 0, nodes_ := 3,
    mass := [1, 1, 1],
    info := [{ restlength := 2, stiffness := 1 / 8, damping := 1 / 4, length := 3,
               direction := 1, alpha := 0, beta := 0 }],
    X := [0, 3, 7] }

end other

/-! # Theorems -/

namespace geode

/-! ## One typed value -/

/-- The node `example_failed` is one of the three states of a typed value, and it
is the state in which `fetch` leaves a fresh node whose recomputation throws. -/
theorem Value.example_failed_state :
    Value.example_failed.exactly_one ∧
    (Value.fetch (Trace.update (fun s => (s, some "boom"))) (Value.fresh : Value Nat String)
      ⟨[], 0⟩).1.1 = Value.example_failed := by
  constructor
  · simp [Value.exactly_one, Value.holds_value, Value.holds_failure, Value.example_failed]
  · simp [Value.fetch, ValueBase.pull, Trace.update, Value.fresh, Value.example_failed]

/-- `set_value` on a node that is dirty or has a `T` in its buffer: the node ends
not dirty, without failure, holding `v`, and the outside state is the result of
exactly one `signal()` call, made at that updated state. -/
theorem Value.set_value_postcondition {T E σ : Type} (signal : Value T E → σ → Except Undefined σ)
    (w : σ) (self : Value T E) (v : T) (tr : Trace T E)
    (h : self.dirty_ = true ∨ self.buffer.isSome = true) :
    Value.set_value signal self v w
      = (match signal { dirty_ := false, error := none, buffer := some v } w with
         | .error u => .error u
         | .ok w1 => .ok (({ dirty_ := false, error := none, buffer := some v } : Value T E), w1)) ∧
    Value.set_value Trace.signal self v tr
      = .ok (({ dirty_ := false, error := none, buffer := some v } : Value T E),
          { signals := tr.signals ++ [{ dirty_ := false, error := none, buffer := some v }],
            updates := tr.updates }) ∧
    Value.peek ({ dirty_ := false, error := none, buffer := some v } : Value T E)
      = ({ dirty_ := false, error := none, buffer := some v }, .ok (some v)) := by
  obtain ⟨⟨d, e⟩, b⟩ := self
  cases d <;> cases b <;>
    simp_all [Value.set_value, Value.destroy, Value.peek, Trace.signal]

/-- `set_value` returns exactly when the node is dirty or has a `T` in its
buffer. -/
theorem Value.set_value_returns_iff {T E : Type} (self : Value T E) (v : T) (tr : Trace T E) :
    (∃ r, Value.set_value Trace.signal self v tr = .ok r) ↔
      (self.dirty_ = true ∨ self.buffer.isSome = true) := by
  obtain ⟨⟨d, e⟩, b⟩ := self
  cases d <;> cases b <;> simp [Value.set_value, Value.destroy, Trace.signal]

/-- `set_dirty` on a node that is dirty or has a `T` in its buffer: the node ends
dirty, with empty failure slot and empty buffer; the only call to the outside is
one `signal()` when the node was not dirty, and none when it was. -/
theorem Value.set_dirty_postcondition {T E σ : Type} (signal : Value T E → σ → Except Undefined σ)
    (w : σ) (self : Value T E) (tr : Trace T E)
    (h : self.exactly_one) (hb : self.dirty_ = true ∨ self.buffer.isSome = true) :
    Value.set_dirty signal self w
      = (if self.dirty_ then .ok (self, w)
         else match signal { dirty_ := true, error := none, buffer := none } w with
           | .error u => .error u
           | .ok w1 => .ok (({ dirty_ := true, error := none, buffer := none } : Value T E), w1)) ∧
    (∃ tr1, Value.set_dirty Trace.signal self tr
        = .ok (({ dirty_ := true, error := none, buffer := none } : Value T E), tr1) ∧
      tr1.updates = tr.updates) := by
  obtain ⟨⟨d, e⟩, b⟩ := self
  cases d
  · cases b
    · simp at hb
    · simp [Value.set_dirty, Value.destroy, Trace.signal]
  · rcases h with h | h | h
    · simp at h
    · simp at h
    · cases e <;> cases b <;>
        simp_all [Value.set_dirty, Value.holds_value, Value.holds_failure]

/-- C3 (amended): `Value<T>::peek` raises the assertion failure if and only if the
node is dirty.  On a dirty node it raises it; on a node that is not dirty and
whose buffer holds a value `v` it returns `v`.  In every case the fields
`dirty_`, `error` and `buffer` are unchanged, and `peek` has no `update`
handler: it cannot call `pull()`. -/
theorem peek_returns_stored_value {T E : Type} (self : Value T E) (v : T) :
    ((∃ t, (Value.peek self).2 = .error t) ↔ self.dirty_ = true) ∧
    (self.dirty_ = true → Value.peek self = (self, .error .assertion)) ∧
    (self.dirty_ = false → self.buffer = some v → Value.peek self = (self, .ok (some v))) ∧
    (Value.peek self).1 = self := by
  obtain ⟨⟨d, e⟩, b⟩ := self
  cases d <;> simp [Value.peek]

/-- Witness of C3 (amended): a dirty node and a node holding 7. -/
theorem peek_returns_stored_value_witness :
    Value.peek (Value.fresh : Value Nat String) = (Value.fresh, .error .assertion) ∧
    Value.peek ({ dirty_ := false, error := none, buffer := some 7 } : Value Nat String)
      = ({ dirty_ := false, error := none, buffer := some 7 }, .ok (some 7)) :=
  ⟨(peek_returns_stored_value (Value.fresh : Value Nat String) 0).2.1 rfl,
   (peek_returns_stored_value
      ({ dirty_ := false, error := none, buffer := some 7 } : Value Nat String) 7).2.2.1
      rfl rfl⟩

/-- C3 as stated fails on a node that holds a failure: `example_failed` is one of
the three states of a typed value and is not dirty, `peek` passes the assertion,
and what it returns is the buffer in which there is no cached value. -/
theorem peek_on_failure_counterexample :
    Value.example_failed.exactly_one ∧
    Value.example_failed.dirty_ = false ∧
    Value.peek Value.example_failed = (Value.example_failed, .ok none) := by
  refine ⟨Value.example_failed_state.1, rfl, ?_⟩
  simp [Value.peek, Value.example_failed]

/-- A write keeps the invariant "no failure, and dirty exactly when the storage is
empty", and returns. -/
theorem Write.apply_keeps {T E : Type} (op : Write T) (s : Value T E × Trace T E)
    (h : s.1.error = none ∧ (s.1.dirty_ = true ↔ s.1.buffer = none)) :
    ∃ s1, op.apply s = .ok s1 ∧
      s1.1.error = none ∧ (s1.1.dirty_ = true ↔ s1.1.buffer = none) := by
  obtain ⟨⟨⟨d, e⟩, b⟩, tr⟩ := s
  cases op <;> cases d <;> cases b <;>
    simp_all [Write.apply, Value.set_value, Value.set_dirty, Value.destroy, Trace.signal]

/-- The invariant holds after every sequence of writes, and every write of the
sequence returns. -/
theorem Write.run_keeps {T E : Type} (ops : List (Write T)) (s : Value T E × Trace T E)
    (h : s.1.error = none ∧ (s.1.dirty_ = true ↔ s.1.buffer = none)) :
    ∃ s1, Write.run ops s = .ok s1 ∧
      s1.1.error = none ∧ (s1.1.dirty_ = true ↔ s1.1.buffer = none) := by
  induction ops generalizing s with
  | nil => exact ⟨s, rfl, h⟩
  | cons op ops ih =>
    obtain ⟨s1, h1, h2⟩ := Write.apply_keeps op s h
    obtain ⟨s2, h3, h4⟩ := ih s1 h2
    exact ⟨s2, by simp [Write.run, h1, h3], h4⟩

/-- C4: state exclusivity of a typed value.  Starting from a freshly created node
(dirty, no value, no failure), every sequence of `set_value` and `set_dirty`
calls returns, and after it exactly one of "storage holds a T", "failure slot
holds a capsule", "node is dirty" is true; a dirty node has no stored value and
no failure, and a present failure implies that the node is not dirty and that its
storage is empty. -/
theorem state_exclusivity {T E : Type} (ops : List (Write T)) (tr : Trace T E) :
    ∃ s, Write.run ops ((Value.fresh : Value T E), tr) = .ok s ∧
      s.1.exactly_one ∧
      (s.1.dirty_ = true → s.1.buffer = none ∧ s.1.error = none) ∧
      (s.1.error.isSome = true → s.1.dirty_ = false ∧ s.1.buffer = none) := by
  obtain ⟨s, hs, h⟩ :=
    Write.run_keeps ops ((Value.fresh : Value T E), tr) (by simp [Value.fresh])
  refine ⟨s, hs, ?_⟩
  obtain ⟨⟨⟨d, e⟩, b⟩, tr1⟩ := s
  cases d <;> cases b <;>
    simp_all [Value.exactly_one, Value.holds_value, Value.holds_failure]

/-- Witness of C4: the state after `set_value(3); set_dirty(); set_value(5)`. -/
theorem state_exclusivity_witness :
    ∃ s, Write.run [Write.set_value 3, Write.set_dirty, Write.set_value 5]
        ((Value.fresh : Value Nat String), ⟨[], 0⟩) = .ok s ∧ s.1.exactly_one :=
  match state_exclusivity [Write.set_value 3, Write.set_dirty, Write.set_value 5]
      (⟨[], 0⟩ : Trace Nat String) with
  | ⟨s, hs, h, _⟩ => ⟨s, hs, h⟩

/-- C5: `fetch` (`Value<T>::operator()`) on an up-to-date node is a pure read.
For every node with `dirty_ = false` and every `update` handler, `fetch` leaves
the fields and the outside state unchanged (the handler is not called), throws the
stored failure again if one is present and returns the content of the buffer
otherwise.  For every node, dirty or not, the second of two consecutive `fetch`
calls changes nothing, gives the same result as the first, and the two together
call `update()` at most once. -/
theorem fetch_clean_is_pure_read {T E σ : Type}
    (update : Value T E → σ → (Value T E × σ) × Option E) (w : σ)
    (recompute : Value T E → Value T E × Option E) (self : Value T E) (tr : Trace T E) :
    (self.dirty_ = false →
      Value.fetch update self w
        = ((self, w), match self.error with
                      | some e => .error (.raised e)
                      | none => .ok self.buffer)) ∧
    (self.dirty_ = false →
      (Value.fetch (Trace.update recompute) self tr).1.2.updates = tr.updates) ∧
    (Value.fetch update (Value.fetch update self w).1.1 (Value.fetch update self w).1.2
      = Value.fetch update self w) ∧
    (Value.fetch (Trace.update recompute)
        (Value.fetch (Trace.update recompute) self tr).1.1
        (Value.fetch (Trace.update recompute) self tr).1.2).1.2.updates ≤ tr.updates + 1 := by
  obtain ⟨⟨d, e⟩, b⟩ := self
  refine ⟨?_, ?_, ?_, ?_⟩
  · intro h
    simp only at h
    subst h
    cases e <;> simp [Value.fetch, ValueBase.pull]
  · intro h
    simp only at h
    subst h
    cases e <;> simp [Value.fetch, ValueBase.pull]
  · cases d
    · cases e <;> simp [Value.fetch, ValueBase.pull]
    · rcases hu : update ⟨⟨true, e⟩, b⟩ w with ⟨⟨⟨⟨d1, e1⟩, b1⟩, w1⟩, _ | x⟩
      · cases e1 <;> simp [Value.fetch, ValueBase.pull, hu]
      · simp [Value.fetch, ValueBase.pull, hu]
  · cases d
    · cases e <;> simp [Value.fetch, ValueBase.pull]
    · rcases hu : recompute ⟨⟨true, e⟩, b⟩ with ⟨⟨⟨d1, e1⟩, b1⟩, _ | x⟩
      · cases e1 <;> simp [Value.fetch, ValueBase.pull, Trace.update, hu]
      · simp [Value.fetch, ValueBase.pull, Trace.update, hu]

/-- Witness of C5: a node holding 7 and a node holding the failure "boom". -/
theorem fetch_clean_is_pure_read_witness :
    Value.fetch (Trace.update (fun s => (s, none)))
        ({ dirty_ := false, error := none, buffer := some 7 } : Value Nat String) ⟨[], 0⟩
      = (({ dirty_ := false, error := none, buffer := some 7 }, ⟨[], 0⟩), .ok (some 7)) ∧
    Value.fetch (Trace.update (fun s => (s, none)))
        ({ dirty_ := false, error := some "boom", buffer := none } : Value Nat String) ⟨[], 0⟩
      = (({ dirty_ := false, error := some "boom", buffer := none }, ⟨[], 0⟩),
          .error (.raised "boom")) :=
  ⟨(fetch_clean_is_pure_read (Trace.update (fun s => (s, none))) ⟨[], 0⟩ (fun s => (s, none))
      ({ dirty_ := false, error := none, buffer := some 7 } : Value Nat String) ⟨[], 0⟩).1 rfl,
   (fetch_clean_is_pure_read (Trace.update (fun s => (s, none))) ⟨[], 0⟩ (fun s => (s, none))
      ({ dirty_ := false, error := some "boom", buffer := none } : Value Nat String)
      ⟨[], 0⟩).1 rfl⟩

/-- On a node that is already dirty `set_dirty()` changes no field and makes no
call to the outside; and for every state and every handler, what `set_dirty()`
called twice does is what `set_dirty()` called once does (the same fields and
outside state when the first call returns, undefined when it does not). -/
theorem Value.set_dirty_twice_eq {T E σ : Type} (signal : Value T E → σ → Except Undefined σ)
    (w : σ) (self : Value T E) :
    (self.dirty_ = true → Value.set_dirty signal self w = .ok (self, w)) ∧
    Value.set_dirty_twice signal self w = Value.set_dirty signal self w := by
  obtain ⟨⟨d, e⟩, b⟩ := self
  cases d
  · cases b
    · simp [Value.set_dirty_twice, Value.set_dirty, Value.destroy]
    · cases hs : signal { dirty_ := true, error := none, buffer := none } w <;>
        simp [Value.set_dirty_twice, Value.set_dirty, Value.destroy, hs]
  · simp [Value.set_dirty_twice, Value.set_dirty]

/-- When `set_dirty()` called twice returns, it has called `signal()` at most
once. -/
theorem Value.set_dirty_twice_signals {T E : Type} (self : Value T E) (tr : Trace T E)
    (r : Value T E × Trace T E) (h : Value.set_dirty_twice Trace.signal self tr = .ok r) :
    r.2.signals.length ≤ tr.signals.length + 1 := by
  obtain ⟨⟨d, e⟩, b⟩ := self
  cases d <;> cases b <;>
    simp [Value.set_dirty_twice, Value.set_dirty, Value.destroy, Trace.signal] at h <;>
    subst h <;> simp

end geode

namespace geode

/-! ## Propagation in a dependency graph -/

theorem Graph.drain_nil {n : Nat} {T E : Type} (g : Graph n T E) (h : g.pending = []) :
    g.drain = .ok g := by
  rw [Graph.drain]
  split
  · rfl
  · simp_all

theorem Graph.drain_cons {n : Nat} {T E : Type} (g : Graph n T E) (m : Fin n) (rest : List (Fin n))
    (h : g.pending = m :: rest) :
    g.drain = (match Graph.set_dirty_with Graph.enqueue_only { g with pending := rest } m with
      | .error u => .error u
      | .ok g1 => g1.drain) := by
  rw [Graph.drain]
  split
  · simp_all
  · rename_i m1 rest1 h1
    rw [h] at h1
    cases h1
    split <;> rename_i h2 <;> simp [h2]

theorem Graph.set_dirty_with_dirty {n : Nat} {T E : Type}
    (sig : Graph n T E → Fin n → Except Undefined (Graph n T E)) (g : Graph n T E) (m : Fin n)
    (h : (g.values m).dirty_ = true) : Graph.set_dirty_with sig g m = .ok g := by
  simp [Graph.set_dirty_with, Value.set_dirty, h]

theorem Graph.set_dirty_with_clean {n : Nat} {T E : Type}
    (sig : Graph n T E → Fin n → Except Undefined (Graph n T E)) (g : Graph n T E) (m : Fin n)
    (b : T) (h : (g.values m).dirty_ = false) (hb : (g.values m).buffer = some b) :
    Graph.set_dirty_with sig g m
      = sig (g.store m { dirty_ := true, error := none, buffer := none }) m := by
  cases hs : sig (g.store m { dirty_ := true, error := none, buffer := none }) m <;>
    simp [Graph.set_dirty_with, Value.set_dirty, Value.destroy, h, hb, hs]

theorem Graph.set_dirty_with_undefined {n : Nat} {T E : Type}
    (sig : Graph n T E → Fin n → Except Undefined (Graph n T E)) (g : Graph n T E) (m : Fin n)
    (h : (g.values m).dirty_ = false) (hb : (g.values m).buffer = none) :
    Graph.set_dirty_with sig g m = .error .destroy_without_object := by
  simp [Graph.set_dirty_with, Value.set_dirty, Value.destroy, h, hb]

theorem Value.same_or_dirtied_trans {T E : Type} {a b c : Value T E}
    (h1 : Value.same_or_dirtied a b) (h2 : Value.same_or_dirtied b c) :
    Value.same_or_dirtied a c := by
  rcases h1 with h1 | h1 <;> rcases h2 with h2 | h2 <;> simp_all [Value.same_or_dirtied]

/-- Marking a clean node dirty and enqueuing its dependents keeps the invariant,
keeps the edges, keeps dirty nodes dirty and recomputes nothing. -/
theorem Graph.mark_spec {n : Nat} {T E : Type} (x : Fin n) (ex : Fin n → Fin n → Prop)
    (g : Graph n T E) (m : Fin n) (rest : List (Fin n)) (hp : g.pending = m :: rest)
    (h : g.inv x ex) :
    (({ g with pending := rest }.store m
        { dirty_ := true, error := none, buffer := none }).enqueue m).inv x ex ∧
    (∀ i, (g.values i).dirty_ = true →
      ((({ g with pending := rest }.store m
        { dirty_ := true, error := none, buffer := none }).enqueue m).values i).dirty_ = true) ∧
    (∀ i, Value.same_or_dirtied (g.values i)
      ((({ g with pending := rest }.store m
        { dirty_ := true, error := none, buffer := none }).enqueue m).values i)) := by
  have hmono : ∀ i, (g.values i).dirty_ = true →
      (Function.update g.values m
        ({ dirty_ := true, error := none, buffer := none } : Value T E) i).dirty_ = true := by
    intro i hi
    by_cases him : i = m
    · subst him; simp
    · simpa [Function.update_noteq him] using hi
  refine ⟨?_, ?_, ?_⟩
  · intro u k hk hu
    simp only [Graph.enqueue, Graph.store] at hk hu ⊢
    by_cases hum : u = m
    · subst hum
      right; left
      simp [hk]
    · rw [Function.update_noteq hum] at hu
      rcases h u k hk hu with h1 | h1 | h1
      · left; exact hmono k h1
      · rw [hp] at h1
        rcases List.mem_cons.mp h1 with h2 | h2
        · left; subst h2; simp
        · right; left; simp [h2]
      · right; right; exact h1
  · intro i hi
    simpa [Graph.enqueue, Graph.store] using hmono i hi
  · intro i
    simp only [Graph.enqueue, Graph.store]
    by_cases him : i = m
    · subst him; right; simp
    · left; simp [Function.update_noteq him]

/-- One round of the drain loop that returns keeps the invariant, keeps the edges,
keeps dirty nodes dirty and recomputes nothing. -/
theorem Graph.round_spec {n : Nat} {T E : Type} (x : Fin n) (ex : Fin n → Fin n → Prop)
    (g g1 : Graph n T E) (m : Fin n) (rest : List (Fin n)) (hp : g.pending = m :: rest)
    (h : g.inv x ex)
    (hr : Graph.set_dirty_with Graph.enqueue_only { g with pending := rest } m = .ok g1) :
    g1.inv x ex ∧ g1.actions = g.actions ∧
    (∀ i, (g.values i).dirty_ = true → (g1.values i).dirty_ = true) ∧
    (∀ i, Value.same_or_dirtied (g.values i) (g1.values i)) := by
  cases hd : (g.values m).dirty_
  · cases hb : (g.values m).buffer with
    | none =>
      rw [Graph.set_dirty_with_undefined _ _ _ (by simpa using hd) (by simpa using hb)] at hr
      cases hr
    | some b =>
      rw [Graph.set_dirty_with_clean _ _ _ b (by simpa using hd) (by simpa using hb)] at hr
      simp only [Graph.enqueue_only, Except.ok.injEq] at hr
      subst hr
      obtain ⟨a1, a2, a3⟩ := Graph.mark_spec x ex g m rest hp h
      exact ⟨a1, rfl, a2, a3⟩
  · rw [Graph.set_dirty_with_dirty _ _ _ (by simpa using hd)] at hr
    simp only [Except.ok.injEq] at hr
    subst hr
    refine ⟨?_, rfl, fun i hi => hi, fun i => Or.inl rfl⟩
    intro u k hk hu
    rcases h u k hk hu with h1 | h1 | h1
    · left; exact h1
    · rw [hp] at h1
      rcases List.mem_cons.mp h1 with h2 | h2
      · left; subst h2; exact hd
      · right; left; exact h2
    · right; right; exact h1

/-- In a graph where every clean node has a `T` in its buffer, one round of the
drain loop returns, and leaves such a graph. -/
theorem Graph.round_returns {n : Nat} {T E : Type} (g : Graph n T E) (m : Fin n)
    (rest : List (Fin n)) (hs : g.stored) :
    ∃ g1, Graph.set_dirty_with Graph.enqueue_only { g with pending := rest } m = .ok g1 ∧
      g1.stored := by
  cases hd : (g.values m).dirty_
  · have hb := hs m hd
    rw [Option.isSome_iff_exists] at hb
    obtain ⟨b, hb⟩ := hb
    refine ⟨_, Graph.set_dirty_with_clean _ _ _ b (by simpa using hd) (by simpa using hb), ?_⟩
    intro i hi
    simp only [Graph.enqueue, Graph.store] at hi ⊢
    by_cases him : i = m
    · subst him; simp at hi
    · rw [Function.update_noteq him] at hi ⊢
      exact hs i hi
  · exact ⟨_, Graph.set_dirty_with_dirty _ _ _ (by simpa using hd), hs⟩

/-- When the drain loop returns, it has emptied the worklist, kept the invariant,
kept the edges, kept dirty nodes dirty and recomputed nothing. -/
theorem Graph.drain_spec {n : Nat} {T E : Type} (x : Fin n) (ex : Fin n → Fin n → Prop)
    (g g2 : Graph n T E) (hd : g.drain = .ok g2) (h : g.inv x ex) :
    g2.pending = [] ∧ g2.inv x ex ∧ g2.actions = g.actions ∧
    (∀ i, (g.values i).dirty_ = true → (g2.values i).dirty_ = true) ∧
    (∀ i, Value.same_or_dirtied (g.values i) (g2.values i)) := by
  induction g using Graph.drain.induct with
  | case1 g hp =>
    rw [Graph.drain_nil g hp] at hd
    simp only [Except.ok.injEq] at hd
    subst hd
    exact ⟨hp, h, rfl, fun i hi => hi, fun i => Or.inl rfl⟩
  | case2 g m rest hp u hu =>
    rw [Graph.drain_cons g m rest hp, hu] at hd
    cases hd
  | case3 g m rest hp g1 hg1 ih =>
    rw [Graph.drain_cons g m rest hp, hg1] at hd
    obtain ⟨r1, r2, r3, r4⟩ := Graph.round_spec x ex g g1 m rest hp h hg1
    obtain ⟨i1, i2, i3, i4, i5⟩ := ih hd r1
    exact ⟨i1, i2, i3.trans r2, fun i hi => i4 i (r3 i hi),
      fun i => Value.same_or_dirtied_trans (r4 i) (i5 i)⟩

/-- In a graph where every clean node has a `T` in its buffer the drain loop
returns. -/
theorem Graph.drain_returns {n : Nat} {T E : Type} (g : Graph n T E) (hs : g.stored) :
    ∃ g2, g.drain = .ok g2 := by
  induction g using Graph.drain.induct with
  | case1 g hp => exact ⟨g, Graph.drain_nil g hp⟩
  | case2 g m rest hp u hu =>
    obtain ⟨g1, h1, _⟩ := Graph.round_returns g m rest hs
    rw [hu] at h1
    cases h1
  | case3 g m rest hp g1 hg1 ih =>
    obtain ⟨g1a, h1, h2⟩ := Graph.round_returns g m rest hs
    rw [hg1] at h1
    simp only [Except.ok.injEq] at h1
    subst h1
    obtain ⟨g2, h3⟩ := ih h2
    exact ⟨g2, by rw [Graph.drain_cons g m rest hp, hg1]; exact h3⟩

theorem Graph.signal_idle {n : Nat} {T E : Type} (g : Graph n T E) (x : Fin n)
    (hp : g.pending = []) : Graph.signal g x = (g.enqueue x).drain := by
  simp [Graph.signal, hp]

/-- When `set_value` returns, it is the `signal()` made after `v` has been
stored that has returned. -/
theorem Graph.set_value_ok {n : Nat} {T E : Type} (g g1 : Graph n T E) (x : Fin n) (v : T)
    (h : g.set_value x v = .ok g1) :
    Graph.signal (g.store x { dirty_ := false, error := none, buffer := some v }) x = .ok g1 := by
  cases hd : (g.values x).dirty_ <;> cases hb : (g.values x).buffer <;>
    simp only [Graph.set_value, Value.set_value, Value.destroy, hd, hb] at h <;>
    revert h <;>
    cases hs : Graph.signal (g.store x { dirty_ := false, error := none, buffer := some v }) x <;>
    simp [hs]

/-- `set_value` on a node that is dirty or has a `T` in its buffer is the
`signal()` made after `v` has been stored. -/
theorem Graph.set_value_eq {n : Nat} {T E : Type} (g : Graph n T E) (x : Fin n) (v : T)
    (h : (g.values x).dirty_ = true ∨ (g.values x).buffer.isSome = true) :
    g.set_value x v
      = Graph.signal (g.store x { dirty_ := false, error := none, buffer := some v }) x := by
  cases hs : Graph.signal (g.store x { dirty_ := false, error := none, buffer := some v }) x <;>
    cases hd : (g.values x).dirty_ <;> cases hb : (g.values x).buffer <;>
    simp_all [Graph.set_value, Value.set_value, Value.destroy]

/-- In a graph with an empty worklist that satisfies the invariant, every node
reachable from `x` is dirty, unless it is `x` itself. -/
theorem Graph.reachable_dirty {n : Nat} {T E : Type} (x : Fin n) (g g1 : Graph n T E)
    (ha : g1.actions = g.actions) (hp : g1.pending = []) (h : g1.inv x (fun _ k => k = x))
    (m : Fin n) (hr : g.reachable x m) : (g1.values m).dirty_ = true ∨ m = x := by
  induction hr with
  | single hk =>
    rcases h x _ (by rw [ha]; exact hk) (Or.inr rfl) with h1 | h1 | h1
    · exact Or.inl h1
    · simp [hp] at h1
    · exact Or.inr h1
  | @tail b c _ hk ih =>
    rcases h b c (by rw [ha]; exact hk) ih with h1 | h1 | h1
    · exact Or.inl h1
    · simp [hp] at h1
    · exact Or.inr h1

/-- In a closed graph every node reachable from a dirty node is dirty. -/
theorem Graph.closed_reachable {n : Nat} {T E : Type} (g : Graph n T E) (hc : g.closed)
    (x m : Fin n) (hx : (g.values x).dirty_ = true) (hr : g.reachable x m) :
    (g.values m).dirty_ = true := by
  induction hr with
  | single hk => exact hc x hx _ hk
  | tail _ hk ih => exact hc _ ih _ hk

/-- What `set_value` on node `x` has done when it returns, in a closed graph with
an empty worklist: every node reachable from `x`, `x` itself apart, is
dirty. -/
theorem Graph.set_value_spec {n : Nat} {T E : Type} (g g1 : Graph n T E) (x : Fin n) (v : T)
    (hp : g.pending = []) (hc : g.closed) (h : g.set_value x v = .ok g1) :
    g1.pending = [] ∧
    (∀ m, g.reachable x m → (g1.values m).dirty_ = true ∨ m = x) ∧
    g1.actions = g.actions ∧
    (∀ m, Value.same_or_dirtied
      ((g.store x { dirty_ := false, error := none, buffer := some v }).values m)
      (g1.values m)) := by
  have h1 := Graph.set_value_ok g g1 x v h
  rw [Graph.signal_idle _ _ (by simpa [Graph.store] using hp)] at h1
  have hinv : ((g.store x { dirty_ := false, error := none, buffer := some v }).enqueue x).inv x
      (fun _ k => k = x) := by
    intro u k hk hu
    simp only [Graph.enqueue, Graph.store] at hk hu ⊢
    by_cases hux : u = x
    · subst hux
      right; left
      simp [hk]
    · by_cases hkx : k = x
      · right; right; exact hkx
      · left
        rw [Function.update_noteq hux] at hu
        rw [Function.update_noteq hkx]
        exact hc u (by simpa [hux] using hu) k hk
  obtain ⟨d1, d2, d3, _, d5⟩ := Graph.drain_spec x (fun _ k => k = x) _ g1 h1 hinv
  exact ⟨d1, fun m hr => Graph.reachable_dirty x g g1 d3 d1 d2 m hr, d3, d5⟩

/-- What `set_dirty` on node `x` has done when it returns, in a closed graph with
an empty worklist; the graph is closed again. -/
theorem Graph.set_dirty_spec {n : Nat} {T E : Type} (g g1 : Graph n T E) (x : Fin n)
    (hp : g.pending = []) (hc : g.closed) (h : g.set_dirty x = .ok g1) :
    g1.pending = [] ∧ g1.closed ∧ g1.actions = g.actions ∧ (g1.values x).dirty_ = true ∧
    (∀ m, Value.same_or_dirtied (g.values m) (g1.values m)) := by
  cases hd : (g.values x).dirty_
  · cases hb : (g.values x).buffer with
    | none =>
      rw [Graph.set_dirty, Graph.set_dirty_with_undefined _ _ _ hd hb] at h
      cases h
    | some b =>
      rw [Graph.set_dirty, Graph.set_dirty_with_clean _ _ _ b hd hb,
        Graph.signal_idle _ _ (by simpa [Graph.store] using hp)] at h
      have hinv : ((g.store x { dirty_ := true, error := none, buffer := none }).enqueue x).inv x
          (fun _ _ => False) := by
        intro u k hk hu
        simp only [Graph.enqueue, Graph.store] at hk hu ⊢
        by_cases hux : u = x
        · subst hux
          right; left
          simp [hk]
        · left
          rw [Function.update_noteq hux] at hu
          have hk1 := hc u (by simpa [hux] using hu) k hk
          by_cases hkx : k = x
          · subst hkx; simp
          · rw [Function.update_noteq hkx]; exact hk1
      obtain ⟨d1, d2, d3, d4, d5⟩ := Graph.drain_spec x (fun _ _ => False) _ g1 h hinv
      refine ⟨d1, ?_, d3, d4 x (by simp [Graph.enqueue, Graph.store]), ?_⟩
      · intro u hu k hk
        rcases d2 u k hk (Or.inl hu) with h1 | h1 | h1
        · exact h1
        · simp [d1] at h1
        · exact h1.elim
      · intro m
        refine Value.same_or_dirtied_trans ?_ (d5 m)
        simp only [Graph.enqueue, Graph.store]
        by_cases hmx : m = x
        · subst hmx; right; simp
        · left; simp [Function.update_noteq hmx]
  · rw [Graph.set_dirty, Graph.set_dirty_with_dirty _ _ _ hd] at h
    simp only [Except.ok.injEq] at h
    subst h
    exact ⟨hp, hc, rfl, hd, fun m => Or.inl rfl⟩

/-- `set_value` on a node none of whose inputs is dirty (a leaf, or a node whose
action has just fetched its inputs) keeps the graph closed. -/
theorem Graph.set_value_closed {n : Nat} {T E : Type} (g g1 : Graph n T E) (x : Fin n) (v : T)
    (hp : g.pending = []) (hc : g.closed)
    (hin : ∀ u, x ∈ g.actions u → (g.values u).dirty_ = false)
    (h : g.set_value x v = .ok g1) : g1.closed := by
  have h1 := Graph.set_value_ok g g1 x v h
  rw [Graph.signal_idle _ _ (by simpa [Graph.store] using hp)] at h1
  have hinv : ((g.store x { dirty_ := false, error := none, buffer := some v }).enqueue x).inv x
      (fun _ _ => False) := by
    intro u k hk hu
    simp only [Graph.enqueue, Graph.store] at hk hu ⊢
    by_cases hux : u = x
    · subst hux
      right; left
      simp [hk]
    · left
      rw [Function.update_noteq hux] at hu
      have hu1 : (g.values u).dirty_ = true := by simpa [hux] using hu
      have hkx : k ≠ x := by
        intro hkx
        subst hkx
        rw [hin u hk] at hu1
        cases hu1
      rw [Function.update_noteq hkx]
      exact hc u hu1 k hk
  obtain ⟨d1, d2, _, _, _⟩ := Graph.drain_spec x (fun _ _ => False) _ g1 h1 hinv
  intro u hu k hk
  rcases d2 u k hk (Or.inl hu) with h2 | h2 | h2
  · exact h2
  · simp [d1] at h2
  · exact h2.elim

/-- In a graph with an empty worklist where every clean node has a `T` in its
buffer, `set_value` and `set_dirty` return. -/
theorem Graph.writes_return {n : Nat} {T E : Type} (g : Graph n T E) (x : Fin n) (v : T)
    (hp : g.pending = []) (hs : g.stored) :
    (∃ g1, g.set_value x v = .ok g1) ∧ (∃ g1, g.set_dirty x = .ok g1) := by
  constructor
  · have hx : (g.values x).dirty_ = true ∨ (g.values x).buffer.isSome = true := by
      cases hd : (g.values x).dirty_
      · exact Or.inr (hs x hd)
      · exact Or.inl rfl
    rw [Graph.set_value_eq g x v hx, Graph.signal_idle _ _ (by simpa [Graph.store] using hp)]
    apply Graph.drain_returns
    intro i hi
    simp only [Graph.enqueue, Graph.store] at hi ⊢
    by_cases hix : i = x
    · subst hix; simp
    · rw [Function.update_noteq hix] at hi ⊢
      exact hs i hi
  · cases hd : (g.values x).dirty_
    · have hb := hs x hd
      rw [Option.isSome_iff_exists] at hb
      obtain ⟨b, hb⟩ := hb
      rw [Graph.set_dirty, Graph.set_dirty_with_clean _ _ _ b hd hb,
        Graph.signal_idle _ _ (by simpa [Graph.store] using hp)]
      apply Graph.drain_returns
      intro i hi
      simp only [Graph.enqueue, Graph.store] at hi ⊢
      by_cases hix : i = x
      · subst hix; simp at hi
      · rw [Function.update_noteq hix] at hi ⊢
        exact hs i hi
    · exact ⟨g, by rw [Graph.set_dirty, Graph.set_dirty_with_dirty _ _ _ hd]⟩

/-- The drain loop touches only the nodes of a set that contains the worklist and
is closed under the edges. -/
theorem Graph.drain_frame {n : Nat} {T E : Type} (R : Fin n → Prop) (g g2 : Graph n T E)
    (hd : g.drain = .ok g2) (hpend : ∀ k ∈ g.pending, R k)
    (hedge : ∀ a, R a → ∀ b ∈ g.actions a, R b) :
    ∀ i, ¬ R i → g2.values i = g.values i := by
  induction g using Graph.drain.induct with
  | case1 g hp =>
    rw [Graph.drain_nil g hp] at hd
    simp only [Except.ok.injEq] at hd
    subst hd
    exact fun _ _ => rfl
  | case2 g m rest hp u hu =>
    rw [Graph.drain_cons g m rest hp, hu] at hd
    cases hd
  | case3 g m rest hp g1 hg1 ih =>
    rw [Graph.drain_cons g m rest hp, hg1] at hd
    have hm : R m := hpend m (by simp [hp])
    have hrest : ∀ k ∈ rest, R k := fun k hk => hpend k (by simp [hp, hk])
    cases hdm : (g.values m).dirty_
    · cases hb : (g.values m).buffer with
      | none =>
        rw [Graph.set_dirty_with_undefined _ _ _ (by simpa using hdm) (by simpa using hb)] at hg1
        cases hg1
      | some b =>
        rw [Graph.set_dirty_with_clean _ _ _ b (by simpa using hdm) (by simpa using hb)] at hg1
        simp only [Graph.enqueue_only, Except.ok.injEq] at hg1
        subst hg1
        intro i hi
        have him : i ≠ m := fun h => hi (h ▸ hm)
        rw [ih hd (fun k hk => by
              simp only [Graph.enqueue, Graph.store, List.mem_append] at hk
              rcases hk with hk | hk
              · exact hrest k hk
              · exact hedge m hm k hk)
            (fun a ha b hb1 => hedge a ha b hb1) i hi]
        simp [Graph.enqueue, Graph.store, Function.update_noteq him]
    · rw [Graph.set_dirty_with_dirty _ _ _ (by simpa using hdm)] at hg1
      simp only [Except.ok.injEq] at hg1
      subst hg1
      exact ih hd hrest hedge

/-- When `set_value` on a node `x` that does not depend on itself returns, `x`
holds the new value and is not dirty, and the nodes that are not reachable from
`x` are untouched. -/
theorem Graph.set_value_frame {n : Nat} {T E : Type} (g g1 : Graph n T E) (x : Fin n) (v : T)
    (hp : g.pending = []) (hx : ¬ g.reachable x x) (h : g.set_value x v = .ok g1) :
    g1.values x = { dirty_ := false, error := none, buffer := some v } ∧
    ∀ i, i ≠ x → ¬ g.reachable x i → g1.values i = g.values i := by
  have h1 := Graph.set_value_ok g g1 x v h
  rw [Graph.signal_idle _ _ (by simpa [Graph.store] using hp)] at h1
  have hf := Graph.drain_frame (fun k => g.reachable x k) _ g1 h1
    (fun k hk => by
      simp only [Graph.enqueue, Graph.store, hp, List.nil_append] at hk
      exact Relation.TransGen.single hk)
    (fun a ha b hb => Relation.TransGen.tail ha hb)
  refine ⟨?_, fun i hix hi => ?_⟩
  · rw [hf x hx]
    simp [Graph.enqueue, Graph.store]
  · rw [hf i hi]
    simp [Graph.enqueue, Graph.store, Function.update_noteq hix]

/-- A graph all of whose nodes are dirty, as they are created, is closed. -/
theorem Graph.closed_of_all_dirty {n : Nat} {T E : Type} (g : Graph n T E)
    (h : ∀ i, (g.values i).dirty_ = true) : g.closed :=
  fun _ _ m _ => h m

/-- The edges of `example_chain` go from a handle to a larger one, so that no node
of it is reachable from itself. -/
theorem Graph.example_chain_increasing (a b : Fin 4)
    (h : Graph.example_chain.reachable a b) : a < b := by
  have hstep : ∀ c d : Fin 4, d ∈ Graph.example_chain.actions c → c < d := by decide
  induction h with
  | single hk => exact hstep _ _ hk
  | tail _ hk ih => exact lt_trans ih (hstep _ _ hk)

/-- C6: propagation completeness.  For every dependency graph in a state that a
writer can find (the worklist is empty: no drain is in progress; every dependent
of a dirty node is dirty, which every write keeps; `x` does not depend on
itself) and every node `x`: when `set_value` or `set_dirty` on `x` returns,
every node transitively reachable from `x` through dependent edges is dirty, the
worklist is empty again, and no node has been recomputed (the fields of every
node are those it had, those that `set_value` stored in `x`, or the empty dirty
state).  The calls do return when every clean node has a `T` in its buffer. -/
theorem propagation_complete {n : Nat} {T E : Type} (g : Graph n T E) (x : Fin n) (v : T)
    (hp : g.pending = []) (hc : g.closed) (hx : ¬ g.reachable x x) :
    (∀ g1, g.set_value x v = .ok g1 →
      (∀ m, g.reachable x m → (g1.values m).dirty_ = true) ∧
      g1.pending = [] ∧
      (∀ m, Value.same_or_dirtied
        ((g.store x { dirty_ := false, error := none, buffer := some v }).values m)
        (g1.values m))) ∧
    (∀ g1, g.set_dirty x = .ok g1 →
      (∀ m, g.reachable x m → (g1.values m).dirty_ = true) ∧
      g1.pending = [] ∧
      (∀ m, Value.same_or_dirtied (g.values m) (g1.values m))) ∧
    (g.stored → (∃ g1, g.set_value x v = .ok g1) ∧ (∃ g1, g.set_dirty x = .ok g1)) := by
  refine ⟨?_, ?_, fun hs => Graph.writes_return g x v hp hs⟩
  · intro g1 h
    obtain ⟨v1, v2, _, v4⟩ := Graph.set_value_spec g g1 x v hp hc h
    refine ⟨fun m hr => ?_, v1, v4⟩
    rcases v2 m hr with h1 | h1
    · exact h1
    · subst h1
      exact (hx hr).elim
  · intro g1 h
    obtain ⟨s1, s2, s3, s4, s5⟩ := Graph.set_dirty_spec g g1 x hp hc h
    refine ⟨fun m hr => ?_, s1, s5⟩
    have hr1 : g1.reachable x m := by
      simpa [Graph.reachable, s3] using hr
    exact Graph.closed_reachable _ s2 x m s4 hr1

/-- Witness of C6: `set_value` on node 0 of `example_chain` returns and has marked
node 2 dirty. -/
theorem propagation_complete_witness :
    Graph.example_chain.pending = [] ∧ Graph.example_chain.closed ∧
    ¬ Graph.example_chain.reachable 0 0 ∧
    ∃ g1, Graph.example_chain.set_value 0 5 = .ok g1 ∧ (g1.values 2).dirty_ = true :=
  ⟨rfl, fun u hu => by simp [Graph.example_chain] at hu,
   fun h => lt_irrefl _ (Graph.example_chain_increasing 0 0 h),
   match ((propagation_complete Graph.example_chain 0 5 rfl
      (fun u hu => by simp [Graph.example_chain] at hu)
      (fun h => lt_irrefl _ (Graph.example_chain_increasing 0 0 h))).2.2
      (fun i _ => by simp [Graph.example_chain])).1 with
   | ⟨g1, h1⟩ =>
     ⟨g1, h1, ((propagation_complete Graph.example_chain 0 5 rfl
        (fun u hu => by simp [Graph.example_chain] at hu)
        (fun h => lt_irrefl _ (Graph.example_chain_increasing 0 0 h))).1 g1 h1).1 2
        (Relation.TransGen.tail
          (Relation.TransGen.single (show (1 : Fin 4) ∈ Graph.example_chain.actions 0 by decide))
          (show (2 : Fin 4) ∈ Graph.example_chain.actions 1 by decide))⟩⟩

end geode

namespace other

/-! ## Springs -/

theorem read_ok {α : Type} (a : List α) (i : Int) (h0 : 0 ≤ i) (h1 : i < a.length) :
    ∃ x, a[i.toNat]? = some x ∧ read a i = .ok x := by
  have hlt : i.toNat < a.length := by omega
  refine ⟨a[i.toNat], List.getElem?_eq_getElem hlt, ?_⟩
  simp [read, h0, List.getElem?_eq_getElem hlt]

theorem modify_at_ok {α : Type} (a : List α) (i : Int) (f : α → α) (h0 : 0 ≤ i)
    (h1 : i < a.length) :
    ∃ x, a[i.toNat]? = some x ∧ modify_at a i f = .ok (a.set i.toNat (f x)) := by
  obtain ⟨x, hx, hr⟩ := read_ok a i h0 h1
  exact ⟨x, hx, by simp [modify_at, hr]⟩

theorem sum_set {V : Type} [AddCommGroup V] (F : List V) (k : Nat) (x y : V)
    (h : F[k]? = some x) : (F.set k y).sum = F.sum - x + y := by
  induction F generalizing k with
  | nil => simp at h
  | cons a F ih =>
    cases k with
    | zero =>
      simp at h
      subst h
      simp only [List.set_cons_zero, List.sum_cons]
      abel
    | succ k =>
      simp at h
      simp only [List.set_cons_succ, List.sum_cons, ih k h]
      abel

section
variable {K V : Type} [LinearOrderedField K] [AddCommGroup V] [Module K V]

/-- The loop of `add_elastic_force` returns, keeps the size and the sum of `F`, and
leaves the entries that are endpoints of no spring as they were. -/
theorem Springs.add_elastic_force_loop_spec (info : List (SpringInfo K V))
    (springs : List (Int × Int)) (s : Nat) (F : List V)
    (hinfo : s + springs.length ≤ info.length)
    (hrange : ∀ p ∈ springs, 0 ≤ p.1 ∧ p.1 < F.length ∧ 0 ≤ p.2 ∧ p.2 < F.length) :
    ∃ F1, Springs.add_elastic_force_loop info springs s F = .ok F1 ∧
      F1.length = F.length ∧ F1.sum = F.sum ∧
      ∀ k : Nat, (∀ p ∈ springs, p.1 ≠ (k : Int) ∧ p.2 ≠ (k : Int)) → F1[k]? = F[k]? := by
  induction springs generalizing s F with
  | nil => exact ⟨F, rfl, rfl, rfl, fun _ _ => rfl⟩
  | cons p rest ih =>
    obtain ⟨i, j⟩ := p
    obtain ⟨hi0, hi1, hj0, hj1⟩ := hrange (i, j) (List.mem_cons_self _ _)
    simp only [List.length_cons] at hinfo
    have hs : s < info.length := by omega
    generalize hf : (info[s].stiffness * (info[s].length - info[s].restlength)) • info[s].direction
      = f
    obtain ⟨x, hx, hm1⟩ := modify_at_ok F i (fun x => x + f) hi0 hi1
    have hlen1 : (F.set i.toNat (x + f)).length = F.length := List.length_set _ _ _
    obtain ⟨y, hy, hm2⟩ := modify_at_ok (F.set i.toNat (x + f)) j (fun x => x - f)
      hj0 (by rw [hlen1]; exact hj1)
    obtain ⟨F1, h1, h2, h3, h4⟩ := ih (s + 1) ((F.set i.toNat (x + f)).set j.toNat (y - f))
      (by omega) (fun p hp => by
        have := hrange p (List.mem_cons_of_mem _ hp)
        simpa [List.length_set] using this)
    refine ⟨F1, ?_, ?_, ?_, ?_⟩
    · simp only [Springs.add_elastic_force_loop, List.getElem?_eq_getElem hs, hf, hm1, hm2]
      exact h1
    · simpa [List.length_set] using h2
    · rw [h3, sum_set _ _ _ _ hy, sum_set _ _ _ _ hx]
      abel
    · intro k hk
      obtain ⟨hki, hkj⟩ := hk (i, j) (List.mem_cons_self _ _)
      simp only at hki hkj hi0 hj0
      rw [h4 k (fun p hp => hk p (List.mem_cons_of_mem _ hp))]
      have hik : i.toNat ≠ k := by omega
      have hjk : j.toNat ≠ k := by omega
      rw [List.getElem?_set_ne hjk, List.getElem?_set_ne hik]

/-- C9: `Springs::add_elastic_force` applies equal and opposite forces.  For every
spring list with endpoints in `[0, nodes)` (each spring having its `info` entry,
as in every object that the constructor has built) and every force array `F` of
size `nodes`, the call returns an array of the same
size whose sum over all nodes, in exact arithmetic, equals the sum of `F` before
the call, and whose entries at nodes that are endpoints of no spring are those
of `F`. -/
theorem add_elastic_force_net_zero (self : Springs K V) (F : List V)
    (hF : (F.length : Int) = self.nodes_)
    (hinfo : self.springs.length ≤ self.info.length)
    (hrange : ∀ p ∈ self.springs,
      0 ≤ p.1 ∧ p.1 < self.nodes_ ∧ 0 ≤ p.2 ∧ p.2 < self.nodes_) :
    ∃ F1, self.add_elastic_force F = .ok F1 ∧ F1.length = F.length ∧ F1.sum = F.sum ∧
      ∀ k : Nat, (∀ p ∈ self.springs, p.1 ≠ (k : Int) ∧ p.2 ≠ (k : Int)) → F1[k]? = F[k]? := by
  simp only [Springs.add_elastic_force, hF, if_true]
  exact Springs.add_elastic_force_loop_spec self.info self.springs 0 F (by omega)
    (fun p hp => by rw [hF]; exact hrange p hp)

end

/-- Witness of C9: the stretched spring of `example_line` and the forces
`[10, 20, 30]`. -/
theorem add_elastic_force_net_zero_witness :
    ((([10, 20, 30] : List ℚ).length : Int) = Springs.example_line.nodes_) ∧
    ∃ F1, Springs.example_line.add_elastic_force [10, 20, 30] = .ok F1 ∧
      F1.length = ([10, 20, 30] : List ℚ).length ∧ F1.sum = ([10, 20, 30] : List ℚ).sum ∧
      ∀ k : Nat, (∀ p ∈ Springs.example_line.springs, p.1 ≠ (k : Int) ∧ p.2 ≠ (k : Int)) →
        F1[k]? = ([10, 20, 30] : List ℚ)[k]? :=
  ⟨by decide,
   add_elastic_force_net_zero Springs.example_line [10, 20, 30] (by decide) (by decide)
     (by decide)⟩

section
variable {K V : Type} [LinearOrderedField K] [AddCommGroup V]

/-- The body of the loop of `update_position` keeps `restlength` and `stiffness`
and produces the stiffness split. -/
theorem SpringInfo.update_spec (normalize : V → V × K) (resist_compression definite : Bool)
    (Xi Xj : V) (I : SpringInfo K V) :
    (SpringInfo.update normalize resist_compression definite Xi Xj I).restlength = I.restlength ∧
    (SpringInfo.update normalize resist_compression definite Xi Xj I).stiffness = I.stiffness ∧
    (SpringInfo.update normalize resist_compression definite Xi Xj I).stiffness_split
      resist_compression definite := by
  unfold SpringInfo.update
  cases definite
  · simp only [Bool.false_eq_true, if_false]
    split_ifs with h1 h2
    · simp only [Bool.and_eq_true, Bool.not_eq_true', decide_eq_true_eq] at h1
      exact ⟨rfl, rfl, Or.inl ⟨h1.1, h1.2, rfl, rfl⟩⟩
    · refine ⟨rfl, rfl, Or.inr ⟨by simp, fun hle => ?_, fun _ => by simp⟩⟩
      simp only [SpringInfo.threshold, Bool.false_eq_true, if_false] at hle
      exact absurd h2 (not_lt.mpr hle)
    · refine ⟨rfl, rfl, Or.inr ⟨by simp, fun _ => ⟨rfl, rfl⟩, fun hle => ?_⟩⟩
      simp only [SpringInfo.threshold, Bool.false_eq_true, if_false] at hle
      exact absurd (lt_of_not_le hle) h2
  · simp only [if_true]
    split_ifs with h1 h2
    · simp only [Bool.and_eq_true, Bool.not_eq_true', decide_eq_true_eq] at h1
      exact ⟨rfl, rfl, Or.inl ⟨h1.1, h1.2, rfl, rfl⟩⟩
    · refine ⟨rfl, rfl, Or.inr ⟨by simp, fun hle => ?_, fun _ => by simp⟩⟩
      simp only [SpringInfo.threshold, if_true] at hle
      exact absurd h2 (not_lt.mpr hle)
    · refine ⟨rfl, rfl, Or.inr ⟨by simp, fun _ => ⟨rfl, rfl⟩, fun hle => ?_⟩⟩
      simp only [SpringInfo.threshold, if_true] at hle
      exact absurd (lt_of_not_le hle) h2

/-- When the loop of `update_position` returns, the entries before `s` are
untouched and the entries of the springs from `s` on have the stiffness split. -/
theorem Springs.update_position_loop_spec (normalize : V → V × K)
    (resist_compression definite : Bool) (X : List V) (springs : List (Int × Int)) (s : Nat)
    (info info1 : List (SpringInfo K V))
    (h : Springs.update_position_loop normalize resist_compression definite X springs s info
      = .ok info1) :
    (∀ k, k < s → info1[k]? = info[k]?) ∧
    (∀ k, s ≤ k → k < s + springs.length → ∃ I0 I, info[k]? = some I0 ∧ info1[k]? = some I ∧
      I.restlength = I0.restlength ∧ I.stiffness = I0.stiffness ∧
      I.stiffness_split resist_compression definite) := by
  induction springs generalizing s info with
  | nil =>
    simp only [Springs.update_position_loop, Except.ok.injEq] at h
    subst h
    exact ⟨fun _ _ => rfl, fun k h1 h2 => by simp at h2; omega⟩
  | cons p rest ih =>
    obtain ⟨i, j⟩ := p
    simp only [Springs.update_position_loop] at h
    split at h
    · rename_i I Xj Xi hI hXj hXi
      obtain ⟨a1, a2⟩ := ih (s + 1) _ h
      obtain ⟨u1, u2, u3⟩ :=
        SpringInfo.update_spec normalize resist_compression definite Xi Xj I
      have hs : s < info.length := by
        by_contra hc
        rw [List.getElem?_eq_none (by omega)] at hI
        cases hI
      refine ⟨?_, ?_⟩
      · intro k hk
        rw [a1 k (by omega), List.getElem?_set_ne (by omega)]
      · intro k hk1 hk2
        by_cases hks : k = s
        · subst hks
          refine ⟨I, _, hI, ?_, u1, u2, u3⟩
          rw [a1 k (by omega), List.getElem?_set_self hs]
        · obtain ⟨I0, I1, b1, b2, b3, b4, b5⟩ := a2 k (by omega) (by
            simp only [List.length_cons] at hk2; omega)
          rw [List.getElem?_set_ne (by omega)] at b1
          exact ⟨I0, I1, b1, b2, b3, b4, b5⟩
    · cases h

/-- The loop of `update_position` returns when every spring has its `info` entry
and its endpoints are in the range of `X`. -/
theorem Springs.update_position_loop_returns (normalize : V → V × K)
    (resist_compression definite : Bool) (X : List V) (springs : List (Int × Int)) (s : Nat)
    (info : List (SpringInfo K V)) (hinfo : s + springs.length ≤ info.length)
    (hrange : ∀ p ∈ springs, 0 ≤ p.1 ∧ p.1 < X.length ∧ 0 ≤ p.2 ∧ p.2 < X.length) :
    ∃ info1, Springs.update_position_loop normalize resist_compression definite X springs s info
      = .ok info1 := by
  induction springs generalizing s info with
  | nil => exact ⟨info, rfl⟩
  | cons p rest ih =>
    obtain ⟨i, j⟩ := p
    obtain ⟨hi0, hi1, hj0, hj1⟩ := hrange (i, j) (List.mem_cons_self _ _)
    simp only [List.length_cons] at hinfo
    have hs : s < info.length := by omega
    obtain ⟨Xi, _, hXi⟩ := read_ok X i hi0 hi1
    obtain ⟨Xj, _, hXj⟩ := read_ok X j hj0 hj1
    simp only [Springs.update_position_loop, List.getElem?_eq_getElem hs, hXi, hXj]
    exact ih (s + 1) _ (by simp only [List.length_set]; omega)
      (fun p hp => hrange p (List.mem_cons_of_mem _ hp))

/-- `update_position` returns when `X` has one entry for each node, every spring
has its `info` entry and the endpoints are in `[0, nodes)`. -/
theorem Springs.update_position_returns (normalize : V → V × K) (self : Springs K V)
    (X_ : List V) (definite : Bool) (hX : (X_.length : Int) = self.nodes_)
    (hinfo : self.springs.length ≤ self.info.length)
    (hrange : ∀ p ∈ self.springs,
      0 ≤ p.1 ∧ p.1 < self.nodes_ ∧ 0 ≤ p.2 ∧ p.2 < self.nodes_) :
    ∃ self1, self.update_position normalize X_ definite = .ok self1 := by
  obtain ⟨info1, h1⟩ := Springs.update_position_loop_returns normalize self.resist_compression
    definite X_ self.springs 0 self.info (by omega) (fun p hp => by rw [hX]; exact hrange p hp)
  exact ⟨{ self with X := X_, info := info1 }, by simp [Springs.update_position, hX, h1]⟩

/-- C10: stiffness split of `Springs::update_position`.  After
`update_position(X, definite)` has returned, every spring has an `info` entry
with the `restlength` and `stiffness` it had, and either `resist_compression`
is false, `length < restlength`, `alpha = 0` and `beta = 0`; or, in exact
arithmetic, `alpha + beta = stiffness`, with `alpha = 0` and
`beta = stiffness` when `length` does not exceed the threshold (`restlength` if
`definite`, else `0.01*restlength`), and `alpha = stiffness*(1 -
restlength/length)` otherwise. -/
theorem update_position_stiffness_split (normalize : V → V × K) (self self1 : Springs K V)
    (X_ : List V) (definite : Bool)
    (h : self.update_position normalize X_ definite = .ok self1) :
    self1.springs = self.springs ∧
    self1.resist_compression = self.resist_compression ∧
    ∀ s, s < self.springs.length → ∃ I0 I, self.info[s]? = some I0 ∧ self1.info[s]? = some I ∧
      I.restlength = I0.restlength ∧ I.stiffness = I0.stiffness ∧
      I.stiffness_split self.resist_compression definite := by
  simp only [Springs.update_position] at h
  split_ifs at h with hX
  split at h
  · cases h
  · rename_i info1 hloop
    simp only [Except.ok.injEq] at h
    subst h
    refine ⟨rfl, rfl, fun s hs => ?_⟩
    exact (Springs.update_position_loop_spec normalize self.resist_compression definite X_
      self.springs 0 self.info info1 hloop).2 s (by omega) (by omega)

end

/-- Witness of C10: `update_position` on `example_line` with the nodes at
0, 3 and 7. -/
theorem update_position_stiffness_split_witness :
    Springs.example_line.update_position normalize_1d [0, 3, 7] false
      = .ok { Springs.example_line with
              info := [{ restlength := 2, stiffness := 1 / 8, damping := 1 / 4, length := 3,
                         direction := 1, alpha := 1 / 24, beta := 1 / 12 }] } ∧
    ∃ I0 I, Springs.example_line.info[0]? = some I0 ∧
      ({ Springs.example_line with
          info := [{ restlength := 2, stiffness := 1 / 8, damping := 1 / 4, length := 3,
                     direction := 1, alpha := 1 / 24, beta := 1 / 12 }] } :
        Springs ℚ ℚ).info[0]? = some I ∧
      I.restlength = I0.restlength ∧ I.stiffness = I0.stiffness ∧
      I.stiffness_split Springs.example_line.resist_compression false :=
  ⟨by norm_num [Springs.update_position, Springs.update_position_loop, read, SpringInfo.update,
      normalize_1d, Springs.example_line],
   (update_position_stiffness_split normalize_1d Springs.example_line _ [0, 3, 7] false
      (by norm_num [Springs.update_position, Springs.update_position_loop, read,
        SpringInfo.update, normalize_1d, Springs.example_line])).2.2 0 (by decide)⟩

/-! ## The constructor -/

theorem foldl_max_ge (xs : List Int) (a : Int) :
    a ≤ xs.foldl max a ∧ ∀ x ∈ xs, x ≤ xs.foldl max a := by
  induction xs generalizing a with
  | nil => simp
  | cons y ys ih =>
    obtain ⟨h1, h2⟩ := ih (max a y)
    refine ⟨le_trans (le_max_left a y) h1, ?_⟩
    intro x hx
    rcases List.mem_cons.mp hx with h | h
    · subst h
      exact le_trans (le_max_right a x) h1
    · exact h2 x h

theorem array_max_ge (xs : List Int) (x : Int) (h : x ∈ xs) : x ≤ array_max xs := by
  cases xs with
  | nil => simp at h
  | cons y ys =>
    rcases List.mem_cons.mp h with h | h
    · subst h
      exact (foldl_max_ge ys x).1
    · exact (foldl_max_ge ys y).2 x h

/-- What the assertions of the constructor do establish: every endpoint is below
the number of nodes, and `mass` has one entry for each node. -/
theorem Springs.checks_upper_bound {K V : Type} (springs : List (Int × Int)) (mass : List K)
    (X : List V) (stiffness damping_ratio : NdArray K)
    (h : Springs.checks springs mass X stiffness damping_ratio = true) :
    mass.length = X.length ∧ ∀ p ∈ springs, p.1 < (X.length : Int) ∧ p.2 < (X.length : Int) := by
  simp only [Springs.checks, Bool.and_eq_true, Bool.or_eq_true, beq_iff_eq,
    decide_eq_true_eq] at h
  obtain ⟨⟨⟨h1, h2⟩, _⟩, _⟩ := h
  refine ⟨h2, fun p hp => ?_⟩
  rcases h1 with h1 | h1
  · rw [List.length_eq_zero] at h1
    subst h1
    simp at hp
  · have hm1 : p.1 ∈ scalar_view springs := by
      simp only [scalar_view, List.mem_flatMap]
      exact ⟨p, hp, by simp⟩
    have hm2 : p.2 ∈ scalar_view springs := by
      simp only [scalar_view, List.mem_flatMap]
      exact ⟨p, hp, by simp⟩
    exact ⟨lt_of_le_of_lt (array_max_ge _ _ hm1) h1, lt_of_le_of_lt (array_max_ge _ _ hm2) h1⟩

section
variable {K V : Type} [LinearOrderedField K] [AddCommGroup V]

/-- The loop of the constructor keeps the size of `info`. -/
theorem Springs.init_loop_length (magnitude : V → K) (sqrt : K → K) (mass : List K) (X : List V)
    (stiffness damping_ratio : NdArray K) (springs : List (Int × Int)) (s : Nat)
    (info info1 : List (SpringInfo K V))
    (h : Springs.init_loop magnitude sqrt mass X stiffness damping_ratio springs s info
      = .ok info1) :
    info1.length = info.length := by
  induction springs generalizing s info with
  | nil =>
    simp only [Springs.init_loop, Except.ok.injEq] at h
    rw [← h]
  | cons p rest ih =>
    obtain ⟨i, j⟩ := p
    simp only [Springs.init_loop] at h
    split at h
    · cases h
    · split at h
      · cases h
      · rw [ih _ _ h, List.length_set]

/-- The class invariant that the constructor establishes: `info` has one entry
for each spring, and `nodes_` is the size of `X`. -/
theorem Springs.create_spec (magnitude : V → K) (sqrt : K → K) (blank : SpringInfo K V)
    (springs : List (Int × Int)) (mass : List K) (X : List V)
    (stiffness damping_ratio : NdArray K) (self : Springs K V)
    (h : Springs.create magnitude sqrt blank springs mass X stiffness damping_ratio = .ok self) :
    self.springs = springs ∧ self.info.length = springs.length ∧ self.nodes_ = X.length ∧
    self.mass = mass ∧ self.resist_compression = true := by
  simp only [Springs.create] at h
  split_ifs at h
  split at h
  · cases h
  · rename_i info hloop
    simp only [Except.ok.injEq] at h
    subst h
    have := Springs.init_loop_length magnitude sqrt mass X stiffness damping_ratio springs 0 _ _
      hloop
    exact ⟨rfl, by simpa using this, rfl, rfl, rfl⟩

/-- The loop of `update_position` keeps the size of `info`. -/
theorem Springs.update_position_loop_length (normalize : V → V × K)
    (resist_compression definite : Bool) (X : List V) (springs : List (Int × Int)) (s : Nat)
    (info info1 : List (SpringInfo K V))
    (h : Springs.update_position_loop normalize resist_compression definite X springs s info
      = .ok info1) :
    info1.length = info.length := by
  induction springs generalizing s info with
  | nil =>
    simp only [Springs.update_position_loop, Except.ok.injEq] at h
    rw [← h]
  | cons p rest ih =>
    obtain ⟨i, j⟩ := p
    simp only [Springs.update_position_loop] at h
    split at h
    · rw [ih _ _ h, List.length_set]
    · cases h

/-- The class invariant is kept by `update_position`, which stores `X`. -/
theorem Springs.update_position_keeps (normalize : V → V × K) (self self1 : Springs K V)
    (X_ : List V) (definite : Bool)
    (h : self.update_position normalize X_ definite = .ok self1) :
    self1.info.length = self.info.length ∧ self1.nodes_ = self.nodes_ ∧ self1.X = X_ ∧
    self1.mass = self.mass := by
  simp only [Springs.update_position] at h
  split_ifs at h with hX
  split at h
  · cases h
  · rename_i info1 hloop
    simp only [Except.ok.injEq] at h
    subst h
    exact ⟨Springs.update_position_loop_length normalize _ definite X_ _ 0 _ _ hloop,
      rfl, rfl, rfl⟩

end

/-- C8: the assertions of the constructor do not exclude a negative endpoint.  With
one node, `mass = [1]`, scalar stiffness and damping ratio, and the single spring
`(-1, 0)`, all four assertions pass (the largest endpoint is `0 < 1`), the
endpoint `-1` is not in `[0, nodes)`, and the loop of the constructor reads
`X[-1]`, outside of the array. -/
theorem constructor_accepts_negative_endpoint :
    Springs.checks [((-1 : Int), (0 : Int))] [(1 : ℚ)] [(0 : ℚ)] ⟨[], [1]⟩ ⟨[], [1]⟩ = true ∧
    ¬ (0 ≤ ((-1 : Int), (0 : Int)).1 ∧ ((-1 : Int), (0 : Int)).1 < (([(0 : ℚ)].length : Nat) : Int)) ∧
    read [(0 : ℚ)] (-1) = .error .out_of_range ∧
    Springs.create (fun v : ℚ => |v|) (fun x : ℚ => x) ⟨0, 0, 0, 0, 0, 0, 0⟩
      [((-1 : Int), (0 : Int))] [(1 : ℚ)] [(0 : ℚ)] ⟨[], [1]⟩ ⟨[], [1]⟩
      = .error .out_of_range := by
  refine ⟨by decide, by decide, by simp [read], ?_⟩
  simp [Springs.create, Springs.checks, Springs.init_loop, Springs.init_info, read,
    scalar_view, array_max, NdArray.rank]

end other
